import Mathlib

/-!
Shallow embedding of the evaluation engine and the polyhedral projector of
the gopswarm optimization library, together with theorems settling the
frozen claims about them.

Modelling conventions:
* `float64` values are idealized as exact rationals (`ℚ`) in the evaluation
  engine, where no irrational arithmetic occurs, and as reals (`ℝ`) in the
  mesh projection module, whose code uses `math.Sqrt`.
* Go `error` values are opaque: they are modelled as numeric codes, with
  `none` standing for Go `nil`.
* A Go runtime panic (out-of-range index) is modelled by an `Option`-valued
  function returning `none`.
* The sha1 fingerprint of a point's coordinate bit pattern is injective on
  the idealized coordinates, so it is modelled by the coordinate list itself.
* Calls into the objective function are an observable side effect; each
  evaluator therefore also returns the list of coordinate vectors it passed
  to the objective, in call order (its call log).
* The gonum `mat64` library calls (`Solve`, `Inverse`) are modelled by their
  documented semantics: both report an error exactly on a singular system,
  and otherwise produce the least-squares solution resp. the matrix inverse,
  here written with the cofactor formula.
-/

namespace Optim

/-- Opaque model of Go `error` values; `none` is Go `nil`. -/
abbrev Err := ℕ

/-- A coordinate vector (Go `[]float64`). -/
abbrev Vec := List ℚ

/-- Go `Objectiver`: `Objective(v []float64) (float64, error)`. -/
abbrev Obj := Vec → ℚ × Option Err

/-- Go `optim.Point`: coordinate vector plus objective value. -/
structure Point where
  pos : Vec
  val : ℚ
deriving DecidableEq

/-- Go `hashPoint`: sha1 of the big-endian bit pattern of the coordinates.
The digest is injective on idealized coordinates, so it is modelled by the
coordinate list itself. -/
def hashPoint (p : Point) : Vec := p.pos

/-- The loop body of Go `SerialEvaler.Eval`: evaluate each point in order,
append it to the results, and stop early at the first failure unless
`continueOnErr` is set.  Returns (results, returned error, call log).
The final return site in the Go source returns a `nil` error. -/
def serialLoop (continueOnErr : Bool) (obj : Obj) : List Point → List Point × Option Err × List Vec
  | [] => ([], none, [])
  | p :: ps =>
    let r := obj p.pos
    let q : Point := ⟨p.pos, r.1⟩
    if r.2.isSome && !continueOnErr then
      ([q], r.2, [p.pos])
    else
      let rest := serialLoop continueOnErr obj ps
      (q :: rest.1, rest.2.1, p.pos :: rest.2.2)

/-- Go `SerialEvaler.Eval`: both return sites report `n = len(results)`. -/
def SerialEvaler.Eval (continueOnErr : Bool) (obj : Obj) (points : List Point) :
    List Point × ℕ × Option Err × List Vec :=
  let r := serialLoop continueOnErr obj points
  (r.1, r.1.length, r.2.1, r.2.2)

/-- The cache map of Go `CacheEvaler`, `map[[sha1.Size]byte]float64`,
modelled as an association list keyed by fingerprints; insertion prepends,
and lookup takes the first match, which is Go map-overwrite semantics. -/
abbrev Cache := List (Vec × ℚ)

/-- Go map read `ev.cache[hashPoint(p)]`. -/
def cacheLookup (c : Cache) (k : Vec) : Option ℚ :=
  (c.find? (fun kv => kv.1 = k)).map (fun kv => kv.2)

/-- Go map write `ev.cache[hashPoint(p)] = v`. -/
def cacheInsert (c : Cache) (k : Vec) (v : ℚ) : Cache := (k, v) :: c

/-- The classification loop at the top of Go `CacheEvaler.Eval`: for each
input point in order, a cache hit executes `p.Val = val`, which assigns the
cached value to the by-value range variable `p` — a copy whose mutation is
discarded — so a hit contributes nothing; a miss appends the point's index
to `fromnew` and the point itself to `newp`.  Returns `(fromnew, newp)`
with indices counted from `i`. -/
def classify (cache : Cache) : List Point → ℕ → List ℕ × List Point
  | [], _ => ([], [])
  | p :: ps, i =>
    let rest := classify cache ps (i + 1)
    if (cacheLookup cache (hashPoint p)).isSome then rest
    else (i :: rest.1, p :: rest.2)

/-- The backfill loop of Go `CacheEvaler.Eval`:
`for i, p := range newresults { points[fromnew[i]].Val = p.Val }`. -/
def backfill (points : List Point) (fromnew : List ℕ) (newresults : List Point) : List Point :=
  (newresults.zip fromnew).foldl
    (fun pts rv => pts.set rv.2 ⟨(pts.getD rv.2 ⟨[], 0⟩).pos, rv.1.val⟩) points

/-- An inner evaluator as stored in Go `CacheEvaler.ev` (any `Evaler`);
`none` models a call that panics or never returns. -/
abbrev InnerEvaler := Obj → List Point → Option (List Point × ℕ × Option Err × List Vec)

/-- Go `CacheEvaler.Eval`.  Splits the batch into cache hits and misses,
forwards the misses to the inner evaluator in one call, records every
returned value in the cache, backfills the returned values into the input
sequence, and — whenever at least one point was a miss — truncates the
output with `points = points[:fromnew[len(newresults)-1]+1]`.  The result
is `none` when Go would panic: when the inner evaluator returns more
results than were forwarded (so `fromnew[i]` is out of range), and when it
returns zero results while `fromnew` is nonempty (so the truncation index
is `fromnew[-1]`). -/
def CacheEvaler.Eval (inner : InnerEvaler) (cache : Cache) (obj : Obj) (points : List Point) :
    Option (List Point × ℕ × Option Err × Cache × List Vec) :=
  let cl := classify cache points 0
  match inner obj cl.2 with
  | none => none
  | some (newresults, n, err, log) =>
    let cache' := newresults.foldl (fun c r => cacheInsert c (hashPoint r) r.val) cache
    if cl.1.length < newresults.length then none
    else
      let pts := backfill points cl.1 newresults
      if 0 < cl.1.length then
        if newresults.length = 0 then none
        else some (pts.take (cl.1.getD (newresults.length - 1) 0 + 1), n, err, cache', log)
      else some (pts, n, err, cache', log)

/-- Go `SerialEvaler` wrapped as an inner evaluator for `CacheEvaler`
(the serial evaluator always returns). -/
def serialInner (continueOnErr : Bool) : InnerEvaler :=
  fun obj pts => some (SerialEvaler.Eval continueOnErr obj pts)

/-- Objective used by witnesses that never fails: always returns 42. -/
def obj42 : Obj := fun _ => (42, none)

/-- Objective used by serial-evaluator witnesses: fails exactly on `[0]`. -/
def objW8 : Obj := fun v => if v = [0] then (1, some 3) else (2, none)

/-- An inner evaluator that reports a failure and returns zero results, as
the `Evaler` contract allows (unevaluated points must be omitted). -/
def innerEmpty : InnerEvaler := fun _ _ => some ([], 0, some 1, [])

/-- State of the fan-out/collection phases of Go `ParallelEvaler.Eval`:
`pending` spawned tasks that have not yet sent on `ch`, `buffered` messages
sitting in `ch` (capacity `len(points)`), `received` messages taken by the
collection loop, and `closed`, whether `close(ch)` has executed — the
source contains no `close` call, so no transition ever sets it. -/
structure ParState where
  pending : ℕ
  buffered : ℕ
  received : ℕ
  closed : Bool

/-- Transitions of `ParallelEvaler.Eval`: a spawned goroutine sends its
`errpoint` on `ch`, or the collection loop `for p := range ch` receives
one buffered message. -/
inductive ParStep : ParState → ParState → Prop
  | send (p b r : ℕ) (c : Bool) : ParStep ⟨p + 1, b, r, c⟩ ⟨p, b + 1, r, c⟩
  | recv (p b r : ℕ) (c : Bool) : ParStep ⟨p, b + 1, r, c⟩ ⟨p, b, r + 1, c⟩

/-- Initial state of `ParallelEvaler.Eval` on a batch of `n` points: `n`
tasks spawned, channel empty, nothing received, channel not closed. -/
def parInit (n : ℕ) : ParState := ⟨n, 0, 0, false⟩

/-- A `for p := range ch` loop exits only when `ch` is drained and closed
(and `Eval` returns only after that loop and `wg.Wait()`, requiring all
sends done as well). -/
def parCanExit (s : ParState) : Prop := s.pending = 0 ∧ s.buffered = 0 ∧ s.closed = true

/-- Generic dot product of two rows, as computed entrywise by `mat64.Mul`. -/
def dotRow {K : Type} [Mul K] [AddCommMonoid K] (u v : List K) : K :=
  (List.zipWith (fun x y => x * y) u v).sum

/-- Go `ObjectivePenalty`: a two-sided linear system `low <= Ax <= up`, an
inner objective and a scalar weight. -/
structure ObjectivePenalty where
  A : List (List ℚ)
  low : List ℚ
  up : List ℚ
  obj : Obj
  weight : ℚ

/-- The stacked matrix `o.a` built by `ObjectivePenalty.init`:
`Stack(A, -A)`. -/
def ObjectivePenalty.stackedA (o : ObjectivePenalty) : List (List ℚ) :=
  o.A ++ o.A.map (fun row => row.map (fun x => -x))

/-- The stacked bounds `o.b` built by `ObjectivePenalty.init`:
`Stack(Up, -Low)`. -/
def ObjectivePenalty.stackedB (o : ObjectivePenalty) : List ℚ :=
  o.up ++ o.low.map (fun x => -x)

/-- The per-row ranges built by `ObjectivePenalty.init`:
`ranges[i] = up[i] - low[i]`, duplicated once for the stacked rows. -/
def ObjectivePenalty.ranges (o : ObjectivePenalty) : List ℚ :=
  let r := (List.range o.A.length).map (fun i => o.up.getD i 0 - o.low.getD i 0)
  r ++ r

/-- One summand of the penalty loop: rows with positive violation
contribute `diff / ranges[i] * weight`, the rest contribute nothing. -/
def penaltyTerm (w r d : ℚ) : ℚ := if 0 < d then d / r * w else 0

/-- The accumulated penalty of the loop in `ObjectivePenalty.Objective`,
over per-row ranges and violations `diff[i] = (a·x)[i] - b[i]`. -/
def penaltySum (w : ℚ) (ranges diffs : List ℚ) : ℚ :=
  (List.zipWith (penaltyTerm w) ranges diffs).sum

/-- The value returned by `ObjectivePenalty.Objective` for a base value
`val`: `val * (1 + penalty)`. -/
def penalizedValue (val w : ℚ) (ranges diffs : List ℚ) : ℚ :=
  val * (1 + penaltySum w ranges diffs)

/-- The violations `a·x - b` of the stacked system at `v`. -/
def stackedDiffs (a : List (List ℚ)) (b v : List ℚ) : List ℚ :=
  List.zipWith (fun row bi => dotRow row v - bi) a b

/-- Go `ObjectivePenalty.Objective`: evaluate the inner objective; with
zero weight pass its result through untouched; otherwise inflate the value
multiplicatively by the accumulated normalized violations. -/
def ObjectivePenalty.Objective (o : ObjectivePenalty) (v : List ℚ) : ℚ × Option Err :=
  let r := o.obj v
  if o.weight = 0 then r
  else
    (penalizedValue r.1 o.weight o.ranges (stackedDiffs o.stackedA o.stackedB v), r.2)

/-- Penalty decorator used by the C7 counterexample: one constraint
`-100 <= x <= 1`, inner objective constantly `-1`, weight `1`. -/
def oNeg : ObjectivePenalty := ⟨[[1]], [-100], [1], fun _ => (-1, none), 1⟩

end Optim

noncomputable section

namespace Mesh

/-- Tolerance `eps = 1e-5` of `mostviolated`. -/
def eps : ℝ := 1e-5

/-- Go `l2norm`: the Euclidean norm of a row. -/
def l2norm (v : List ℝ) : ℝ := Real.sqrt ((v.map fun x => x * x).sum)

/-- Dot product over the reals (entrywise `mat64.Mul`). -/
def dotRowR (u v : List ℝ) : ℝ := (List.zipWith (fun x y => x * y) u v).sum

/-- One step of the scan in Go `mostviolated`: row `i` is considered when
its violation exceeds `eps`, and replaces the incumbent when its orthogonal
distance `diff / l2norm(row)` strictly exceeds the incumbent's. -/
def mvStep (x0 : List ℝ) (A : List (List ℝ)) (b : List ℝ) (acc : ℝ × Option ℕ) (i : ℕ) :
    ℝ × Option ℕ :=
  let diff := dotRowR (A.getD i []) x0 - b.getD i 0
  if diff > eps then
    let d := diff / l2norm (A.getD i [])
    if d > acc.1 then (d, some i) else acc
  else acc

/-- Go `mostviolated`: scan all rows starting from `farthest = 0`,
`worstRow = -1`, and return the most violated row with its bound, or
nothing when no row is violated beyond `eps`. -/
def mostviolated (x0 : List ℝ) (A : List (List ℝ)) (b : List ℝ) : Option (List ℝ × ℝ) :=
  match ((List.range A.length).foldl (mvStep x0 A b) (0, none)).2 with
  | none => none
  | some i => some (A.getD i [], b.getD i 0)

/-- Minor of a square matrix (as an index function) dropping row 0 and
column `j`, for the Laplace expansion of the determinant. -/
def minorM (M : ℕ → ℕ → ℝ) (j : ℕ) : ℕ → ℕ → ℝ :=
  fun i k => M (i + 1) (if k < j then k else k + 1)

/-- Determinant of the leading `n × n` block of `M`, by Laplace expansion
along the first row. -/
def detN : ℕ → (ℕ → ℕ → ℝ) → ℝ
  | 0, _ => 1
  | n + 1, M =>
    ((List.range (n + 1)).map (fun j => (-1 : ℝ) ^ j * M 0 j * detN n (minorM M j))).sum

/-- Minor dropping row `r` and column `c`. -/
def minorRC (M : ℕ → ℕ → ℝ) (r c : ℕ) : ℕ → ℕ → ℝ :=
  fun i k => M (if i < r then i else i + 1) (if k < c then k else k + 1)

/-- Inverse of the leading `n × n` block of `M` by the cofactor formula:
`(M⁻¹)[i][j] = (-1)^(i+j) det(minor j i) / det M`.  This is the inverse
`mat64.Inverse` produces on a nonsingular input. -/
def invN (n : ℕ) (M : ℕ → ℕ → ℝ) : ℕ → ℕ → ℝ :=
  fun i j => (-1 : ℝ) ^ (i + j) * detN (n - 1) (minorRC M j i) / detN n M

/-- The underdetermined branch (`m < n`) of Go `OrthoProj`: the closed-form
orthogonal projection `x0 + Aᵗ (A Aᵗ)⁻¹ (b - A x0)`, failing exactly when
the Gram matrix `A Aᵗ` is singular, as `mat64.Inverse` reports. -/
def orthoProjUnder (x0 : List ℝ) (rows : List (List ℝ)) (rhs : List ℝ) : Option (List ℝ) :=
  let m := rows.length
  let G : ℕ → ℕ → ℝ := fun i j => dotRowR (rows.getD i []) (rows.getD j [])
  if detN m G = 0 then none
  else
    let Gi := invN m G
    let coeff : ℕ → ℝ := fun i =>
      ((List.range m).map (fun j => Gi i j * (rhs.getD j 0 - dotRowR (rows.getD j []) x0))).sum
    some ((List.range x0.length).map fun k =>
      x0.getD k 0 + ((List.range m).map fun i => (rows.getD i []).getD k 0 * coeff i).sum)

/-- The determined/overdetermined branch (`m >= n`) of Go `OrthoProj`,
`mat64.Solve(A, b)`: the least-squares solution `(AᵗA)⁻¹ Aᵗ b`, failing
exactly when `A` is rank deficient, i.e. when `AᵗA` is singular. -/
def solveLS (rows : List (List ℝ)) (rhs : List ℝ) (n : ℕ) : Option (List ℝ) :=
  let m := rows.length
  let G : ℕ → ℕ → ℝ := fun p q =>
    ((List.range m).map (fun i => (rows.getD i []).getD p 0 * (rows.getD i []).getD q 0)).sum
  if detN n G = 0 then none
  else
    let Atb : ℕ → ℝ := fun p =>
      ((List.range m).map (fun i => (rows.getD i []).getD p 0 * rhs.getD i 0)).sum
    some ((List.range n).map fun p =>
      ((List.range n).map fun q => invN n G p q * Atb q).sum)

/-- Go `OrthoProj` on a working set given as a list of rows and bounds; the
column count is the dimension of the projected point (every row of the
constraint system has that many entries). -/
def OrthoProj (x0 : List ℝ) (rows : List (List ℝ)) (rhs : List ℝ) : Option (List ℝ) :=
  if x0.length ≤ rows.length then solveLS rows rhs x0.length
  else orthoProjUnder x0 rows rhs

/-- The working-set accumulation of Go `Nearest`: start a fresh one-row
system from the violated row, or `Stack` the row below the accumulated
`badA, badb`. -/
def stackBad (bad : Option (List (List ℝ) × List ℝ)) (av : List ℝ) (bv : ℝ) :
    List (List ℝ) × List ℝ :=
  match bad with
  | none => ([av], [bv])
  | some acc => (acc.1 ++ [av], acc.2 ++ [bv])

/-- The loop of Go `Nearest`, with explicit fuel (`none` = the iteration
count exceeded the fuel; the Go loop is unbounded).  State: the reference
point `from`, the current candidate `proj`, the accumulated working set
`badA, badb` (`none` when cleared), and `failcount`.  Besides the result
and feasibility flag it returns the per-iteration projection outcomes
(`true` = `OrthoProj` succeeded), which is the observable event trace of
the loop. -/
def nearestGo (A : List (List ℝ)) (b : List ℝ) :
    ℕ → List ℝ → List ℝ → Option (List (List ℝ) × List ℝ) → ℕ →
    Option (List ℝ × Bool × List Bool)
  | 0, _, _, _, _ => none
  | fuel + 1, from0, proj, bad, failcount =>
    match mostviolated proj A b with
    | none => some (proj, true, [])
    | some violation =>
      let badA := stackBad bad violation.1 violation.2
      match OrthoProj from0 badA.1 badA.2 with
      | none =>
        if failcount + 1 = 2 then some (proj, false, [false])
        else
          Option.map (fun r => (r.1, r.2.1, false :: r.2.2))
            (nearestGo A b fuel proj proj none (failcount + 1))
      | some newproj =>
        Option.map (fun r => (r.1, r.2.1, true :: r.2.2))
          (nearestGo A b fuel from0 newproj (some badA) failcount)

/-- Go `Nearest`: run the active-set loop from `x0` with an empty working
set and zero failures, returning the projected point and the feasibility
flag. -/
def Nearest (fuel : ℕ) (x0 : List ℝ) (A : List (List ℝ)) (b : List ℝ) :
    Option (List ℝ × Bool) :=
  Option.map (fun r => (r.1, r.2.1)) (nearestGo A b fuel x0 x0 none 0)

/-- Detects two consecutive projection failures in an event trace. -/
def consecFails : List Bool → Bool
  | false :: false :: _ => true
  | _ :: rest => consecFails rest
  | [] => false

/-- Constraint matrix of the C2 counterexample: `x <= 0` and `-x <= -5`,
an empty (contradictory) polyhedron in the plane. -/
def AC : List (List ℝ) := [[1, 0], [-1, 0]]

/-- Bounds of the C2 counterexample. -/
def bC : List ℝ := [0, -5]

end Mesh

end

namespace Optim

/-- C4: for every batch in which at least one point's objective evaluation
fails, `SerialEvaler.Eval` with `ContinueOnErr = true` attempts every point
in the batch, but — contrary to the claim — its aggregate error is always
`nil`: the only reachable return site in that mode is the final
`return results, len(results), nil`, which discards every per-point error.
This theorem shows the error component is identically `none` while all
points are attempted, refuting the claimed non-nil aggregate error. -/
theorem serialEval_continueOnErr_swallows_error (obj : Obj) (points : List Point) :
    (SerialEvaler.Eval true obj points).2.2.1 = none ∧
      (SerialEvaler.Eval true obj points).1.length = points.length := by
  have h : ∀ ps : List Point, (serialLoop true obj ps).2.1 = none ∧
      (serialLoop true obj ps).1.length = ps.length := by
    intro ps
    induction ps with
    | nil => exact ⟨rfl, rfl⟩
    | cons p ps ih =>
      simp only [serialLoop, Bool.not_true, Bool.and_false, Bool.false_eq_true, if_false,
        List.length_cons]
      exact ⟨ih.1, by simpa using ih.2⟩
  exact ⟨(h points).1, (h points).2⟩

/-- C8: with `ContinueOnErr = false`, if point `k` (0-indexed) is the first
point whose objective evaluation fails, `SerialEvaler.Eval` stops there and
returns exactly the `k+1` points evaluated up to and including the failing
point, the count `k+1`, and that point's error. -/
theorem serialEval_stops_at_first_failure (obj : Obj) (points : List Point) (k : ℕ) (e : Err)
    (hk : k < points.length)
    (hpre : ∀ j, j < k → (obj (points.getD j ⟨[], 0⟩).pos).2 = none)
    (hfail : (obj (points.getD k ⟨[], 0⟩).pos).2 = some e) :
    SerialEvaler.Eval false obj points =
      ((points.take (k + 1)).map (fun p => ⟨p.pos, (obj p.pos).1⟩), k + 1, some e,
        (points.take (k + 1)).map Point.pos) := by
  have h : ∀ (ps : List Point) (k : ℕ), k < ps.length →
      (∀ j, j < k → (obj (ps.getD j ⟨[], 0⟩).pos).2 = none) →
      (obj (ps.getD k ⟨[], 0⟩).pos).2 = some e →
      serialLoop false obj ps =
        ((ps.take (k + 1)).map (fun p => ⟨p.pos, (obj p.pos).1⟩), some e,
          (ps.take (k + 1)).map Point.pos) := by
    intro ps
    induction ps with
    | nil => intro k hk; exact absurd hk (by simp)
    | cons p ps ih =>
      intro k hk hpre hfail
      cases k with
      | zero =>
        simp only [List.getD_cons_zero] at hfail
        simp only [serialLoop, hfail, Option.isSome_some, Bool.not_false, Bool.and_self,
          if_true, List.take_succ_cons, List.take_zero, List.map_cons, List.map_nil]
      | succ k =>
        have h0 : (obj p.pos).2 = none := by
          have := hpre 0 (Nat.succ_pos k)
          simpa using this
        have hrec := ih k (by simpa using hk)
          (fun j hj => by
            have := hpre (j + 1) (Nat.succ_lt_succ hj)
            simpa using this)
          (by simpa using hfail)
        simp only [serialLoop, h0, Option.isSome_none, Bool.false_and, Bool.false_eq_true,
          if_false, hrec, List.take_succ_cons, List.map_cons]
  have := h points k hk hpre hfail
  simp only [SerialEvaler.Eval, this]
  have hlen : ((points.take (k + 1)).map
      (fun p => (⟨p.pos, (obj p.pos).1⟩ : Point))).length = k + 1 := by
    rw [List.length_map, List.length_take]
    omega
  rw [hlen]

/-- Witness for C8: a three-point batch whose second point fails; the result
holds exactly two points, the count 2, and the failing point's error. -/
theorem serialEval_stops_witness :
    SerialEvaler.Eval false objW8 [⟨[9], 0⟩, ⟨[0], 0⟩, ⟨[7], 0⟩] =
      ((([⟨[9], 0⟩, ⟨[0], 0⟩, ⟨[7], 0⟩] : List Point).take 2).map
          (fun p => ⟨p.pos, (objW8 p.pos).1⟩), 2, some 3,
        (([⟨[9], 0⟩, ⟨[0], 0⟩, ⟨[7], 0⟩] : List Point).take 2).map Point.pos) :=
  serialEval_stops_at_first_failure objW8 [⟨[9], 0⟩, ⟨[0], 0⟩, ⟨[7], 0⟩] 1 3
    (by decide)
    (by
      intro j hj
      have hj0 : j = 0 := by omega
      subst hj0
      decide)
    (by decide)

/-- C1: the cache does prevent re-invocation, but the cached value is lost.
First call: the point with coordinates `[5]` is evaluated (value 42) and
recorded.  Second call on the same cache with bit-identical coordinates and
incoming value 7: the objective is not invoked again (empty call log), but
the returned point still carries its incoming value 7, not the recorded 42,
because `p.Val = val` in the hit branch assigns to the discarded range-loop
copy.  This refutes the claim that the point is returned carrying the value
recorded the first time. -/
theorem cacheEval_hit_drops_recorded_value :
    CacheEvaler.Eval (serialInner false) [] obj42 [⟨[5], 0⟩] =
      some ([⟨[5], 42⟩], 1, none, [([5], 42)], [[5]]) ∧
    CacheEvaler.Eval (serialInner false) [([5], 42)] obj42 [⟨[5], 7⟩] =
      some ([⟨[5], 7⟩], 0, none, [([5], 42)], []) := by
  constructor <;> rfl

/-- C5: when the inner evaluator returns zero results while at least one
point was a cache miss, Go `CacheEvaler.Eval` evaluates
`fromnew[len(newresults)-1]`, i.e. `fromnew[-1]`, and panics with an
out-of-range index (modelled by `none`) instead of returning. -/
theorem cacheEval_zero_results_panics :
    CacheEvaler.Eval innerEmpty [] obj42 [⟨[5], 0⟩] = none := by
  rfl

/-- C6 counterexample: a batch containing two points with identical
fingerprints, neither cached.  Both miss (the cache is only written after
the inner call), both are forwarded and evaluated, and the returned count
is 2, while only 1 distinct fingerprint was evaluated (the call log
deduplicates to one entry).  This refutes the claim that the count equals
the number of distinct-by-fingerprint points evaluated. -/
theorem cacheEval_count_duplicate_fingerprints :
    CacheEvaler.Eval (serialInner false) [] obj42 [⟨[5], 0⟩, ⟨[5], 1⟩] =
      some ([⟨[5], 42⟩, ⟨[5], 42⟩], 2, none, [([5], 42), ([5], 42)], [[5], [5]]) ∧
    ([[5], [5]] : List Vec).dedup.length = 1 := by
  constructor
  · rfl
  · decide

/-- Helper: in `SerialEvaler.Eval` the reported count equals the length of
the call log (each attempted point contributes one result and one call). -/
theorem serialEval_count_eq_log_length (continueOnErr : Bool) (obj : Obj) (pts : List Point) :
    (SerialEvaler.Eval continueOnErr obj pts).2.1 =
      (SerialEvaler.Eval continueOnErr obj pts).2.2.2.length := by
  have h : ∀ ps : List Point,
      (serialLoop continueOnErr obj ps).1.length = (serialLoop continueOnErr obj ps).2.2.length := by
    intro ps
    induction ps with
    | nil => rfl
    | cons p ps ih =>
      simp only [serialLoop]
      by_cases hc : ((obj p.pos).2.isSome && !continueOnErr) = true
      · simp [hc]
      · simp [hc, ih]
  simpa [SerialEvaler.Eval] using h pts

/-- C6 amended: for a serial inner evaluator, whenever `CacheEvaler.Eval`
returns, the reported count `n` equals the number of objective evaluations
the inner evaluator performed in that call (the length of its call log) —
counted with multiplicity, since points with equal fingerprints inside one
batch are each forwarded; cache hits contribute zero. -/
theorem cacheEval_count_is_inner_eval_count (continueOnErr : Bool) (cache : Cache) (obj : Obj)
    (points : List Point) (res : List Point × ℕ × Option Err × Cache × List Vec)
    (h : CacheEvaler.Eval (serialInner continueOnErr) cache obj points = some res) :
    res.2.1 = res.2.2.2.2.length := by
  rcases hS : SerialEvaler.Eval continueOnErr obj (classify cache points 0).2 with
    ⟨results, n, err, log⟩
  have hn : n = log.length := by
    have hh := serialEval_count_eq_log_length continueOnErr obj (classify cache points 0).2
    rw [hS] at hh
    exact hh
  simp only [CacheEvaler.Eval, serialInner, hS] at h
  split at h
  · exact absurd h (by simp)
  · split at h
    · split at h
      · exact absurd h (by simp)
      · obtain rfl := Option.some_inj.mp h
        exact hn
    · obtain rfl := Option.some_inj.mp h
      exact hn

/-- Witness for the amended C6: a single-miss batch where the returned
count 1 equals the single logged objective call. -/
theorem cacheEval_count_witness :
    CacheEvaler.Eval (serialInner false) [] obj42 [⟨[1], 0⟩] =
      some ([⟨[1], 42⟩], 1, none, [([1], 42)], [[1]]) ∧
    (([⟨[1], 42⟩], 1, none, [([1], 42)], [[1]]) :
        List Point × ℕ × Option Err × Cache × List Vec).2.1 =
      (([⟨[1], 42⟩], 1, none, [([1], 42)], [[1]]) :
        List Point × ℕ × Option Err × Cache × List Vec).2.2.2.2.length :=
  ⟨by rfl, cacheEval_count_is_inner_eval_count false [] obj42 [⟨[1], 0⟩] _ (by rfl)⟩

/-- Helper: when no attempted point fails, the serial evaluator evaluates
the whole batch in order and reports a `nil` error. -/
theorem serialEval_no_failures (obj : Obj) (pts : List Point)
    (h : ∀ p ∈ pts, (obj p.pos).2 = none) :
    SerialEvaler.Eval false obj pts =
      (pts.map (fun p => ⟨p.pos, (obj p.pos).1⟩), pts.length, none, pts.map Point.pos) := by
  have hl : ∀ ps : List Point, (∀ p ∈ ps, (obj p.pos).2 = none) →
      serialLoop false obj ps =
        (ps.map (fun p => ⟨p.pos, (obj p.pos).1⟩), none, ps.map Point.pos) := by
    intro ps
    induction ps with
    | nil => intro _; rfl
    | cons p ps ih =>
      intro hh
      have h0 : (obj p.pos).2 = none := hh p (List.mem_cons_self p ps)
      have hrec := ih (fun q hq => hh q (List.mem_cons_of_mem p hq))
      simp only [serialLoop, h0, Option.isSome_none, Bool.false_and, Bool.false_eq_true,
        if_false, hrec, List.map_cons]
  have := hl pts h
  simp only [SerialEvaler.Eval, this, List.length_map]

/-- Helper: `classify` produces one forwarded point per recorded index. -/
theorem classify_fst_length (cache : Cache) (pts : List Point) (i : ℕ) :
    (classify cache pts i).1.length = (classify cache pts i).2.length := by
  induction pts generalizing i with
  | nil => rfl
  | cons p ps ih =>
    simp only [classify]
    by_cases hc : (cacheLookup cache (hashPoint p)).isSome = true
    · simpa [hc] using ih (i + 1)
    · simpa [hc] using ih (i + 1)

/-- Helper: every index recorded by `classify` is within the batch. -/
theorem classify_fst_lt (cache : Cache) (pts : List Point) (i j : ℕ)
    (h : j ∈ (classify cache pts i).1) : j < i + pts.length := by
  induction pts generalizing i with
  | nil => exact absurd h (by simp [classify])
  | cons p ps ih =>
    simp only [classify] at h
    by_cases hc : (cacheLookup cache (hashPoint p)).isSome = true
    · rw [if_pos hc] at h
      have := ih (i + 1) h
      simp only [List.length_cons]
      omega
    · rw [if_neg hc] at h
      rcases List.mem_cons.mp h with h1 | h2
      · subst h1; simp
      · have := ih (i + 1) h2
        simp only [List.length_cons]
        omega

/-- Helper: the entry at position `length - 1` of a nonempty list is a
member of the list. -/
theorem getD_pred_mem : ∀ (l : List ℕ), l ≠ [] → l.getD (l.length - 1) 0 ∈ l := by
  intro l
  induction l with
  | nil => intro h; exact absurd rfl h
  | cons x t ih =>
    intro _
    cases t with
    | nil => simp
    | cons y s =>
      have h2 := ih (by simp)
      simp only [List.length_cons, Nat.add_sub_cancel] at h2 ⊢
      rw [List.getD_cons_succ]
      exact List.mem_cons_of_mem x h2

/-- Helper: a single `points[fromnew[i]].Val = v` store leaves the
coordinate sequence of the batch unchanged. -/
theorem map_pos_set (pts : List Point) (i : ℕ) (v : ℚ) :
    (pts.set i ⟨(pts.getD i ⟨[], 0⟩).pos, v⟩).map Point.pos = pts.map Point.pos := by
  induction pts generalizing i with
  | nil => rfl
  | cons p t ih =>
    cases i with
    | zero => simp
    | succ i => simpa using ih i

/-- Helper: the backfill loop only rewrites values, never coordinates. -/
theorem backfill_map_pos (points : List Point) (fromnew : List ℕ) (newresults : List Point) :
    (backfill points fromnew newresults).map Point.pos = points.map Point.pos := by
  unfold backfill
  generalize newresults.zip fromnew = prs
  induction prs generalizing points with
  | nil => rfl
  | cons rv prs ih =>
    rw [List.foldl_cons, ih, map_pos_set]

/-- Helper: the backfill loop preserves the batch length. -/
theorem backfill_length (points : List Point) (fromnew : List ℕ) (newresults : List Point) :
    (backfill points fromnew newresults).length = points.length := by
  have h := congrArg List.length (backfill_map_pos points fromnew newresults)
  simpa [List.length_map] using h

/-- C10: whenever a batch contains at least one cache miss and the inner
(serial) evaluator succeeds on every forwarded point, `CacheEvaler.Eval`
returns the input sequence truncated at the position of the last cache
miss (`fromnew`'s last entry): trailing cache hits are omitted even though
no failure occurred, and the returned error is `nil`. -/
theorem cacheEval_truncates_at_last_miss (cache : Cache) (obj : Obj) (points : List Point)
    (hobj : ∀ p ∈ (classify cache points 0).2, (obj p.pos).2 = none)
    (hne : (classify cache points 0).1 ≠ []) :
    ∃ res, CacheEvaler.Eval (serialInner false) cache obj points = some res ∧
      res.2.2.1 = none ∧
      res.1.map Point.pos = (points.map Point.pos).take
        ((classify cache points 0).1.getD ((classify cache points 0).1.length - 1) 0 + 1) ∧
      res.1.length =
        (classify cache points 0).1.getD ((classify cache points 0).1.length - 1) 0 + 1 := by
  rcases hcl : classify cache points 0 with ⟨f, np⟩
  rw [hcl] at hobj hne
  dsimp only at hobj hne ⊢
  have hserial := serialEval_no_failures obj np hobj
  have hlen : f.length = np.length := by
    have := classify_fst_length cache points 0
    rw [hcl] at this
    exact this
  have hpos : 0 < f.length := List.length_pos.mpr hne
  have hlast_lt : f.getD (f.length - 1) 0 < points.length := by
    have hmem := getD_pred_mem f hne
    have := classify_fst_lt cache points 0 _ (by rw [hcl]; exact hmem)
    simpa using this
  refine ⟨((backfill points f (np.map fun p => ⟨p.pos, (obj p.pos).1⟩)).take
      (f.getD (f.length - 1) 0 + 1), np.length, none,
      (np.map fun p => (⟨p.pos, (obj p.pos).1⟩ : Point)).foldl
        (fun c r => cacheInsert c (hashPoint r) r.val) cache,
      np.map Point.pos), ?_, rfl, ?_, ?_⟩
  · simp only [CacheEvaler.Eval, serialInner, hcl, hserial]
    have h1 : ¬ (f.length < (np.map (fun p => (⟨p.pos, (obj p.pos).1⟩ : Point))).length) := by
      rw [List.length_map]
      omega
    rw [if_neg h1]
    rw [if_pos hpos]
    have h3 : ¬ ((np.map (fun p => (⟨p.pos, (obj p.pos).1⟩ : Point))).length = 0) := by
      rw [List.length_map]
      omega
    rw [if_neg h3]
    rw [List.length_map, ← hlen]
  · rw [List.map_take, backfill_map_pos]
  · rw [List.length_take, backfill_length]
    omega

/-- Witness for C10: a batch whose first point is a miss and whose second
point is already cached; the result is truncated to the single miss, the
trailing hit is dropped, and no error is reported. -/
theorem cacheEval_truncates_witness :
    ∃ res, CacheEvaler.Eval (serialInner false) [([0], 5)] obj42 [⟨[1], 0⟩, ⟨[0], 9⟩] =
        some res ∧
      res.2.2.1 = none ∧
      res.1.map Point.pos = (([⟨[1], 0⟩, ⟨[0], 9⟩] : List Point).map Point.pos).take
        ((classify [([0], 5)] [⟨[1], 0⟩, ⟨[0], 9⟩] 0).1.getD
          ((classify [([0], 5)] [⟨[1], 0⟩, ⟨[0], 9⟩] 0).1.length - 1) 0 + 1) ∧
      res.1.length = (classify [([0], 5)] [⟨[1], 0⟩, ⟨[0], 9⟩] 0).1.getD
        ((classify [([0], 5)] [⟨[1], 0⟩, ⟨[0], 9⟩] 0).1.length - 1) 0 + 1 :=
  cacheEval_truncates_at_last_miss [([0], 5)] obj42 [⟨[1], 0⟩, ⟨[0], 9⟩]
    (by decide) (by decide)

/-- C3: the collection loop `for p := range ch` of `ParallelEvaler.Eval`
ranges over a channel that no statement ever closes, so no reachable state
of the fan-out/collection system satisfies its exit condition: after all
`N` sends are received the loop blocks forever and `Eval` never returns —
for any batch size, regardless of individual failures.  This refutes the
claim that `Eval` returns once all spawned tasks report. -/
theorem parallelEval_collector_never_exits (n : ℕ) (s : ParState)
    (h : Relation.ReflTransGen ParStep (parInit n) s) : ¬ parCanExit s := by
  have hclosed : s.closed = false := by
    induction h with
    | refl => rfl
    | tail _ hstep ih => cases hstep <;> simpa using ih
  intro hexit
  obtain ⟨-, -, h3⟩ := hexit
  rw [hclosed] at h3
  exact Bool.false_ne_true h3

/-- Witness for C3: the initial state of a two-point batch is reachable
and already fails the exit condition. -/
theorem parallelEval_collector_witness :
    Relation.ReflTransGen ParStep (parInit 2) (parInit 2) ∧ ¬ parCanExit (parInit 2) :=
  ⟨Relation.ReflTransGen.refl,
    parallelEval_collector_never_exits 2 (parInit 2) Relation.ReflTransGen.refl⟩

/-- C7 counterexample: with positive weight, increasing the violation of
stacked row 0 (base value and the other row's violation fixed: row 1 stays
satisfied) strictly decreases the returned penalized value, because the
base objective value is negative: `ObjectivePenalty` multiplies the base
value by `1 + penalty`.  Moving the input from `[2]` to `[3]` raises row
0's violation from 1 to 2 and drops the value from `-102/101` to
`-103/101`.  This refutes the claimed monotonicity. -/
theorem penalty_not_monotone_for_negative_base :
    (oNeg.Objective [3]).1 < (oNeg.Objective [2]).1 ∧
    (stackedDiffs oNeg.stackedA oNeg.stackedB [2]).getD 0 0 <
      (stackedDiffs oNeg.stackedA oNeg.stackedB [3]).getD 0 0 ∧
    (stackedDiffs oNeg.stackedA oNeg.stackedB [2]).getD 1 0 ≤ 0 ∧
    (stackedDiffs oNeg.stackedA oNeg.stackedB [3]).getD 1 0 ≤ 0 ∧
    0 < oNeg.weight := by
  refine ⟨?_, ?_, ?_, ?_, ?_⟩ <;>
    norm_num [oNeg, ObjectivePenalty.Objective, ObjectivePenalty.stackedA,
      ObjectivePenalty.stackedB, ObjectivePenalty.ranges, penalizedValue, penaltySum,
      penaltyTerm, stackedDiffs, dotRow, List.range_succ]

/-- Helper: one penalty summand is monotone in the violation when the
weight and the row's range are positive. -/
theorem penaltyTerm_mono (w r d d' : ℚ) (hw : 0 < w) (hr : 0 < r) (hd : d ≤ d') :
    penaltyTerm w r d ≤ penaltyTerm w r d' := by
  unfold penaltyTerm
  by_cases h1 : 0 < d
  · rw [if_pos h1, if_pos (lt_of_lt_of_le h1 hd)]
    gcongr
  · rw [if_neg h1]
    by_cases h2 : 0 < d'
    · rw [if_pos h2]
      exact mul_nonneg (div_nonneg h2.le hr.le) hw.le
    · rw [if_neg h2]

/-- Helper: raising one row's violation never lowers the accumulated
penalty, provided the weight and that row's range are positive. -/
theorem penaltySum_set_le (w : ℚ) (ranges diffs : List ℚ) (i : ℕ) (d' : ℚ)
    (hw : 0 < w) (hr : 0 < ranges.getD i 0) (hd : diffs.getD i 0 ≤ d') :
    penaltySum w ranges diffs ≤ penaltySum w ranges (diffs.set i d') := by
  induction ranges generalizing diffs i with
  | nil => simp [penaltySum]
  | cons r rs ih =>
    cases diffs with
    | nil => simp [penaltySum]
    | cons d ds =>
      cases i with
      | zero =>
        simp only [List.getD_cons_zero] at hr hd
        simp only [List.set_cons_zero, penaltySum, List.zipWith_cons_cons, List.sum_cons]
        exact add_le_add_right (penaltyTerm_mono w r d d' hw hr hd) _
      | succ i =>
        simp only [List.getD_cons_succ] at hr hd
        simp only [List.set_cons_succ, penaltySum, List.zipWith_cons_cons, List.sum_cons]
        exact add_le_add_left (ih ds i hr hd) _

/-- C7 amended: for `ObjectivePenalty` with positive weight, a nonnegative
base objective value, and a positive range for the modified row,
increasing the violation of a single stacked constraint row (holding the
base value and all other rows' violations fixed) never decreases the
returned penalized value `val * (1 + penalty)`. -/
theorem penalty_monotone_nonneg_base (val w : ℚ) (ranges diffs : List ℚ) (i : ℕ) (d' : ℚ)
    (hval : 0 ≤ val) (hw : 0 < w) (hr : 0 < ranges.getD i 0) (hd : diffs.getD i 0 ≤ d') :
    penalizedValue val w ranges diffs ≤ penalizedValue val w ranges (diffs.set i d') := by
  unfold penalizedValue
  have hsum := penaltySum_set_le w ranges diffs i d' hw hr hd
  have h1 : (1 : ℚ) + penaltySum w ranges diffs ≤ 1 + penaltySum w ranges (diffs.set i d') := by
    linarith
  exact mul_le_mul_of_nonneg_left h1 hval

/-- Witness for the amended C7: a nonnegative base value, weight 1, one row
of range 1, violation raised from 1 to 2. -/
theorem penalty_monotone_witness :
    penalizedValue 1 1 [1] [1] ≤ penalizedValue 1 1 [1] ([1].set 0 2) :=
  penalty_monotone_nonneg_base 1 1 [1] [1] 0 2 (by norm_num) (by norm_num)
    (by norm_num [List.getD_cons_zero]) (by norm_num [List.getD_cons_zero])

end Optim

namespace Mesh

/-- Unfolding equation for one iteration of the `Nearest` loop. -/
theorem nearestGo_succ (A : List (List ℝ)) (b : List ℝ) (fuel : ℕ) (from0 proj : List ℝ)
    (bad : Option (List (List ℝ) × List ℝ)) (failcount : ℕ) :
    nearestGo A b (fuel + 1) from0 proj bad failcount =
      match mostviolated proj A b with
      | none => some (proj, true, [])
      | some violation =>
        let badA := stackBad bad violation.1 violation.2
        match OrthoProj from0 badA.1 badA.2 with
        | none =>
          if failcount + 1 = 2 then some (proj, false, [false])
          else
            Option.map (fun r => (r.1, r.2.1, false :: r.2.2))
              (nearestGo A b fuel proj proj none (failcount + 1))
        | some newproj =>
          Option.map (fun r => (r.1, r.2.1, true :: r.2.2))
            (nearestGo A b fuel from0 newproj (some badA) failcount) := rfl

/-- Helper: at `(10, 0)` the most violated row of the counterexample
system is `x <= 0` (distance 10; the second row is satisfied). -/
theorem mv_run1 : mostviolated [10, 0] AC bC = some ([1, 0], 0) := by
  norm_num [mostviolated, mvStep, AC, bC, dotRowR, l2norm, eps, Real.sqrt_one, List.range_succ]

/-- Helper: at the origin only `-x <= -5` is violated (distance 5). -/
theorem mv_run2 : mostviolated [0, 0] AC bC = some ([-1, 0], -5) := by
  norm_num [mostviolated, mvStep, AC, bC, dotRowR, l2norm, eps, Real.sqrt_one, List.range_succ]

/-- Helper: at `(5, 0)` only `x <= 0` is violated (distance 5). -/
theorem mv_run4 : mostviolated [5, 0] AC bC = some ([1, 0], 0) := by
  norm_num [mostviolated, mvStep, AC, bC, dotRowR, l2norm, eps, Real.sqrt_one, List.range_succ]

/-- Helper: projecting `(10, 0)` onto the single hyperplane `x = 0`
succeeds and yields the origin. -/
theorem op_run1 : OrthoProj [10, 0] [[1, 0]] [0] = some [0, 0] := by
  norm_num [OrthoProj, orthoProjUnder, detN, invN, minorM, minorRC, dotRowR, List.range_succ]

/-- Helper: the stacked rows `x = 0`, `-x = -5` are linearly dependent, so
the square solve fails (singular system). -/
theorem op_run2 : OrthoProj [10, 0] [[1, 0], [-1, 0]] [0, -5] = none := by
  norm_num [OrthoProj, solveLS, detN, invN, minorM, minorRC, List.range_succ]

/-- Helper: projecting the origin onto `-x = -5` succeeds, yielding
`(5, 0)`. -/
theorem op_run3 : OrthoProj [0, 0] [[-1, 0]] [-5] = some [5, 0] := by
  norm_num [OrthoProj, orthoProjUnder, detN, invN, minorM, minorRC, dotRowR, List.range_succ]

/-- Helper: the stacked rows `-x = -5`, `x = 0` are again dependent, so the
second working set also fails. -/
theorem op_run4 : OrthoProj [0, 0] [[-1, 0], [1, 0]] [-5, 0] = none := by
  norm_num [OrthoProj, solveLS, detN, invN, minorM, minorRC, List.range_succ]

/-- Helper: the full four-iteration run of the counterexample: projection
success, failure (reset), success, failure — exit with feasibility false
at the second, non-consecutive failure. -/
theorem nearest_run :
    nearestGo AC bC 4 [10, 0] [10, 0] none 0 =
      some ([5, 0], false, [true, false, true, false]) := by
  have h4 : nearestGo AC bC 1 [0, 0] [5, 0] (some ([[-1, 0]], [-5])) 1
      = some ([5, 0], false, [false]) := by
    rw [nearestGo_succ AC bC 0 [0, 0] [5, 0] (some ([[-1, 0]], [-5])) 1]
    simp only [mv_run4, stackBad, List.cons_append, List.nil_append]
    rw [op_run4]
    simp
  have h3 : nearestGo AC bC 2 [0, 0] [0, 0] none 1
      = some ([5, 0], false, [true, false]) := by
    rw [nearestGo_succ AC bC 1 [0, 0] [0, 0] none 1]
    simp only [mv_run2, stackBad]
    rw [op_run3]
    simp [h4]
  have h2 : nearestGo AC bC 3 [10, 0] [0, 0] (some ([[1, 0]], [0])) 0
      = some ([5, 0], false, [false, true, false]) := by
    rw [nearestGo_succ AC bC 2 [10, 0] [0, 0] (some ([[1, 0]], [0])) 0]
    simp only [mv_run2, stackBad, List.cons_append, List.nil_append]
    rw [op_run2]
    simp [h3]
  rw [nearestGo_succ AC bC 3 [10, 0] [10, 0] none 0]
  simp only [mv_run1, stackBad]
  rw [op_run1]
  simp [h2]

/-- Helper: whenever the `Nearest` loop exits with feasibility false, the
number of projection failures in its trace plus the entry failure count is
exactly two — the counter accumulates across the whole call and is never
reset by a successful projection. -/
theorem nearestGo_false_exit_count (A : List (List ℝ)) (b : List ℝ) :
    ∀ (fuel : ℕ) (f p : List ℝ) (bad : Option (List (List ℝ) × List ℝ)) (c : ℕ)
      (q : List ℝ) (tr : List Bool),
      nearestGo A b fuel f p bad c = some (q, false, tr) → tr.count false + c = 2 := by
  intro fuel
  induction fuel with
  | zero =>
    intro f p bad c q tr h
    exact absurd h (by simp [nearestGo])
  | succ fuel ih =>
    intro f p bad c q tr h
    rw [nearestGo_succ] at h
    rcases hmv : mostviolated p A b with _ | viol
    · rw [hmv] at h
      simp at h
    · rw [hmv] at h
      dsimp only at h
      rcases hop : OrthoProj f (stackBad bad viol.1 viol.2).1 (stackBad bad viol.1 viol.2).2 with
        _ | newproj
      · rw [hop] at h
        by_cases hc : c + 1 = 2
        · rw [if_pos hc] at h
          simp only [Option.some_inj] at h
          have htr : tr = [false] := by
            have h2 := congrArg (fun x => x.2.2) h
            dsimp only at h2
            exact h2.symm
          subst htr
          simp [List.count_cons]
          omega
        · rw [if_neg hc] at h
          rcases hrec : nearestGo A b fuel p p none (c + 1) with _ | r
          · rw [hrec] at h
            simp at h
          · rw [hrec] at h
            simp only [Option.map_some', Option.some_inj] at h
            have h21 : r.2.1 = false := by
              have h2 := congrArg (fun x => x.2.1) h
              dsimp only at h2
              exact h2
            have htr : tr = false :: r.2.2 := by
              have h2 := congrArg (fun x => x.2.2) h
              dsimp only at h2
              exact h2.symm
            have hr : nearestGo A b fuel p p none (c + 1) = some (r.1, false, r.2.2) := by
              rw [hrec, ← h21]
            have hcount := ih p p none (c + 1) r.1 r.2.2 hr
            subst htr
            simp only [List.count_cons] at hcount ⊢
            simp at hcount ⊢
            omega
      · rw [hop] at h
        dsimp only at h
        rcases hrec : nearestGo A b fuel f newproj (some (stackBad bad viol.1 viol.2)) c with
          _ | r
        · rw [hrec] at h
          simp at h
        · rw [hrec] at h
          simp only [Option.map_some', Option.some_inj] at h
          have h21 : r.2.1 = false := by
            have h2 := congrArg (fun x => x.2.1) h
            dsimp only at h2
            exact h2
          have htr : tr = true :: r.2.2 := by
            have h2 := congrArg (fun x => x.2.2) h
            dsimp only at h2
            exact h2.symm
          have hr : nearestGo A b fuel f newproj (some (stackBad bad viol.1 viol.2)) c
              = some (r.1, false, r.2.2) := by
            rw [hrec, ← h21]
          have hcount := ih f newproj (some (stackBad bad viol.1 viol.2)) c r.1 r.2.2 hr
          subst htr
          simp only [List.count_cons] at hcount ⊢
          simp at hcount ⊢
          omega

/-- Helper: when every row satisfies `A_i x - b_i <= eps`, the scan of
`mostviolated` keeps its initial `worstRow = -1` and reports no violation. -/
theorem mostviolated_none (x0 : List ℝ) (A : List (List ℝ)) (b : List ℝ)
    (h : ∀ i, i < A.length → dotRowR (A.getD i []) x0 - b.getD i 0 ≤ eps) :
    mostviolated x0 A b = none := by
  unfold mostviolated
  have hfold : ∀ (l : List ℕ) (acc : ℝ × Option ℕ), (∀ i ∈ l, i < A.length) →
      l.foldl (mvStep x0 A b) acc = acc := by
    intro l
    induction l with
    | nil => intro acc _; rfl
    | cons j t ih =>
      intro acc hmem
      rw [List.foldl_cons]
      have hj : dotRowR (A.getD j []) x0 - b.getD j 0 ≤ eps :=
        h j (hmem j (List.mem_cons_self j t))
      have hstep : mvStep x0 A b acc j = acc := by
        simp only [mvStep]
        rw [if_neg (not_lt.mpr hj)]
      rw [hstep]
      exact ih _ (fun i hi => hmem i (List.mem_cons_of_mem j hi))
  rw [hfold (List.range A.length) (0, none) (fun i hi => List.mem_range.mp hi)]

/-- C9: for every starting point satisfying every row of `A x <= b` within
the tolerance `eps = 1e-5`, the polyhedral projector `Nearest` finds no
violated row on its first iteration and returns the point unchanged with
feasibility true. -/
theorem nearest_feasible_returns_input (fuel : ℕ) (x0 : List ℝ) (A : List (List ℝ))
    (b : List ℝ) (hfuel : 0 < fuel)
    (hfeas : ∀ i, i < A.length → dotRowR (A.getD i []) x0 - b.getD i 0 ≤ eps) :
    Nearest fuel x0 A b = some (x0, true) := by
  obtain ⟨fuel, rfl⟩ := Nat.exists_eq_succ_of_ne_zero (Nat.pos_iff_ne_zero.mp hfuel)
  unfold Nearest
  rw [nearestGo_succ, mostviolated_none x0 A b hfeas]
  rfl

/-- Witness for C9: the origin satisfies `x <= 1` and is returned
unchanged with feasibility true. -/
theorem nearest_feasible_witness :
    Nearest 1 [0, 0] [[1, 0]] [1] = some ([0, 0], true) :=
  nearest_feasible_returns_input 1 [0, 0] [[1, 0]] [1] (by norm_num)
    (by
      intro i hi
      have hi0 : i = 0 := by simpa using hi
      subst hi0
      norm_num [dotRowR, eps])

/-- C2 counterexample: on the contradictory system `x <= 0`, `-x <= -5`
from `(10, 0)`, the run's projection outcomes are success, failure,
success, failure: the loop exits with feasibility false at the second
failure even though the two failures are separated by a successful
projection, so no two consecutive failures ever occur.  This refutes the
claim that the loop exits with feasibility=false only when two projection
failures occur consecutively. -/
theorem nearest_exits_false_without_consecutive_failures :
    Nearest 4 [10, 0] AC bC = some ([5, 0], false) ∧
    nearestGo AC bC 4 [10, 0] [10, 0] none 0 =
      some ([5, 0], false, [true, false, true, false]) ∧
    consecFails [true, false, true, false] = false := by
  refine ⟨?_, nearest_run, by rfl⟩
  unfold Nearest
  rw [nearest_run]
  rfl

/-- C2 amended: the loop exits with feasibility false exactly at the
second projection failure of the call overall — the failure count is
cumulative and not reset by an intervening successful projection — and a
first failure is retried with the reference point reset to the last valid
candidate and the working set cleared.  Part one: a false exit carries
exactly `2 - failcount` failures in its trace.  Part two: a projection
failure at zero failcount continues the loop from the last candidate with
an empty working set and failcount one, recording the failed iteration. -/
theorem nearest_failcount_is_cumulative :
    (∀ (A : List (List ℝ)) (b : List ℝ) (fuel : ℕ) (f p : List ℝ)
        (bad : Option (List (List ℝ) × List ℝ)) (c : ℕ) (q : List ℝ) (tr : List Bool),
        nearestGo A b fuel f p bad c = some (q, false, tr) → tr.count false + c = 2) ∧
    (∀ (A : List (List ℝ)) (b : List ℝ) (fuel : ℕ) (f p : List ℝ)
        (bA : List (List ℝ)) (bb : List ℝ) (av : List ℝ) (bv : ℝ),
        mostviolated p A b = some (av, bv) →
        OrthoProj f (bA ++ [av]) (bb ++ [bv]) = none →
        nearestGo A b (fuel + 1) f p (some (bA, bb)) 0 =
          Option.map (fun r => (r.1, r.2.1, false :: r.2.2))
            (nearestGo A b fuel p p none 1)) := by
  constructor
  · intro A b fuel f p bad c q tr h
    exact nearestGo_false_exit_count A b fuel f p bad c q tr h
  · intro A b fuel f p bA bb av bv hmv hop
    rw [nearestGo_succ, hmv]
    dsimp only [stackBad]
    rw [hop]
    dsimp only
    rw [if_neg (by norm_num)]

/-- Witness for the amended C2: the counterexample run instantiates both
parts — its false exit carries two failures in the trace (entry failcount
zero), and its first failure is retried with the reference reset to the
last candidate and a cleared working set. -/
theorem nearest_failcount_cumulative_witness :
    ([true, false, true, false].count false + 0 = 2) ∧
    nearestGo AC bC (2 + 1) [10, 0] [0, 0] (some ([[1, 0]], [0])) 0 =
      Option.map (fun r => (r.1, r.2.1, false :: r.2.2))
        (nearestGo AC bC 2 [0, 0] [0, 0] none 1) :=
  ⟨nearest_failcount_is_cumulative.1 AC bC 4 [10, 0] [10, 0] none 0 [5, 0]
      [true, false, true, false] nearest_run,
    nearest_failcount_is_cumulative.2 AC bC 2 [10, 0] [0, 0] [[1, 0]] [0] [-1, 0] (-5)
      mv_run2 (by simpa using op_run2)⟩

end Mesh
